import Mathlib

/-!
Shallow embedding of crates/turborepo-filewatch/src/hash_watcher.rs.

The Rust module maintains, per workspace package, the content hashes of the
tracked files of that package, and answers queries for those hashes.  The
core is a single-owner event loop (Subscriber) that reconciles package
topology updates, file change events and hash-computation completions
against one index (FileHashes), and serves GetHash queries.

Modelling conventions, stated once here and referenced by doc comments:
  - GitHashes (turborepo_scm::package_deps::GitHashes, a map from file path
    to hash string) is opaque to the watcher; it is embedded as an
    association list.  Rust clone of the map is value-preserving, so clone
    is the identity in the model.
  - GlobSet is opaque to the watcher (used only as a secondary key); it is
    embedded as a String.
  - A oneshot::Sender of a reply is embedded as a WaiterId (a Nat); the
    replies a handler sends are collected in an output list, in send order.
  - Version is Version(Arc(())) in the source, compared with Arc::ptr_eq.
    Two live allocations are never pointer-equal, so issuance is embedded
    as drawing a fresh id from a counter threaded through the event loop;
    ptr_eq is id equality, and Rust clone keeps the pointer, hence the id.
  - SCMError is only ever observed through to_string, so it is embedded as
    that string.
  - The radix_trie::Trie of the source is embedded as an association list
    with unique keys; Trie::get_ancestor returns the longest key, in byte
    order of the UTF-8 encoding, that is a prefix of the query and carries
    a value.  For valid UTF-8, byte-level prefixes of whole strings
    coincide with character-level prefixes, so the model compares
    List.isPrefixOf on the character data.
  - Real time in the debouncer is embedded as a Nat timeline (milliseconds)
    and the concurrent debounce task is sequentialized: a bump that lands
    strictly before the current deadline is observed by the debounce loop
    and refreshes the deadline; at the deadline the timer path takes the
    lock, sets the serial slot to None and returns.
-/

/-- Waiter identifier standing for a oneshot reply sender held in a Pending
waiter list. -/
abbrev WaiterId := Nat

/-- Opaque input glob set, used verbatim as a secondary index key. -/
abbrev GlobSet := String

/-- Opaque map from package-relative file path to content hash string. -/
abbrev GitHashes := List (String × String)

/-- Rust Result, embedded with decidable equality. -/
inductive RustResult (E A : Type) where
  | ok (val : A)
  | err (e : E)
deriving DecidableEq

/-- HashSpec from the source: repo-relative package path (the trie keys on
its string form) plus an optional input glob set. -/
structure HashSpec where
  package_path : String
  inputs : Option GlobSet
deriving DecidableEq

/-- Error enum of hash_watcher.rs. -/
inductive Error where
  | HashingError (msg : String)
  | Unavailable (msg : String)
  | UnknownPackage (spec : HashSpec)
deriving DecidableEq

/-- Version token: Version(Arc(())) compared by Arc::ptr_eq.  Embedded as
the id drawn at issuance (see the header). -/
abbrev Version := Nat

/-- Version::default issues a fresh token: embedded as drawing the current
counter value and advancing the counter. -/
def Version.issue (ctr : Nat) : Version × Nat := (ctr, ctr + 1)

/-- Clone of a Version keeps the same Arc pointer, hence the same id. -/
def Version.clone (v : Version) : Version := v

/-- PartialEq for Version is Arc::ptr_eq, which is id equality in the
model. -/
def Version.ptrEq (a b : Version) : Bool := a == b

/-- HashDebouncer state: the mutex-guarded serial slot (None once the
debouncer has fired and is terminal) and the timeout duration (Nat
milliseconds). -/
structure HashDebouncer where
  serial : Option Nat
  timeout : Nat
deriving DecidableEq

/-- DEFAULT_DEBOUNCE_TIMEOUT is 10 milliseconds. -/
def DEFAULT_DEBOUNCE_TIMEOUT : Nat := 10

/-- HashDebouncer::new. -/
def HashDebouncer.new (timeout : Nat) : HashDebouncer :=
  { serial := some 0, timeout := timeout }

/-- HashDebouncer::default. -/
def HashDebouncer.mkDefault : HashDebouncer :=
  HashDebouncer.new DEFAULT_DEBOUNCE_TIMEOUT

/-- HashDebouncer::bump: on a live debouncer, increment the serial and
return true; on a terminal debouncer (serial None), a no-op returning
false. -/
def HashDebouncer.bump (d : HashDebouncer) : Bool × HashDebouncer :=
  match d.serial with
  | none => (false, d)
  | some previous => (true, { d with serial := some (previous + 1) })

/-- A sequence of bump calls against a debouncer, threading its state;
returns the bump results in order and the final state. -/
def bumpSeq (d : HashDebouncer) : List Nat → List Bool × HashDebouncer
  | [] => ([], d)
  | _ :: ts =>
      let r := d.bump
      let rest := bumpSeq r.2 ts
      (r.1 :: rest.1, rest.2)

/-- Timed, sequentialized run of HashDebouncer::debounce concurrently with
bumps at the given times (see the header).  Arguments: debouncer state,
current sleep deadline, bump times.  Returns the bump results in order,
the time at which debounce returns, and the final debouncer state.  A bump
strictly before the deadline is live (the debounce loop refreshes its
deadline to bump time plus timeout); otherwise the timer path has already
run at the deadline, set the serial slot to None and returned, and all
remaining bumps hit the terminal debouncer. -/
def debounceRun (d : HashDebouncer) (deadline : Nat) : List Nat → List Bool × Nat × HashDebouncer
  | [] => ([], deadline, { d with serial := none })
  | t :: ts =>
      if t < deadline then
        let r := d.bump
        let rest := debounceRun r.2 (t + d.timeout) ts
        (r.1 :: rest.1, rest.2.1, rest.2.2)
      else
        let dFired : HashDebouncer := { d with serial := none }
        let rest := bumpSeq dFired (t :: ts)
        (rest.1, deadline, rest.2)

/-- Burst condition: each bump lands strictly before the deadline as it
stands when the bump happens (the first before the given deadline, each
later one within timeout T of its predecessor). -/
def burstWithin (T : Nat) : Nat → List Nat → Bool
  | _, [] => true
  | deadline, t :: ts => decide (t < deadline) && burstWithin T (t + T) ts

/-- The deadline left standing after a list of live bumps: the last bump
time plus T, or the initial deadline when there is no bump. -/
def lastDeadline (T init : Nat) (ts : List Nat) : Nat :=
  ts.foldl (fun _ t => t + T) init

/-- Association list lookup with the first binding winning. -/
def assocGet {α β : Type} [DecidableEq α] : List (α × β) → α → Option β
  | [], _ => none
  | (k, v) :: rest, key => if k = key then some v else assocGet rest key

/-- Association list update: replace the first binding of the key, or
append a new binding when the key is absent. -/
def assocSet {α β : Type} [DecidableEq α] : List (α × β) → α → β → List (α × β)
  | [], key, val => [(key, val)]
  | (k, v) :: rest, key, val =>
      if k = key then (key, val) :: rest else (k, v) :: assocSet rest key val

/-- HashState enum: Hashes (called Ready in the specification), Pending
with version, debouncer and ordered waiter list, or Unavailable with a
reason. -/
inductive HashState where
  | Hashes (hashes : GitHashes)
  | Pending (version : Version) (debouncer : HashDebouncer) (txs : List WaiterId)
  | Unavailable (reason : String)
deriving DecidableEq

/-- Inner map of the trie: input glob set to hash state (a HashMap in the
source, association list with unique keys in the model). -/
abbrev InnerStates := List (Option GlobSet × HashState)

/-- FileHashes: the package index, Trie of String keys to inner maps. -/
structure FileHashes where
  trie : List (String × InnerStates)
deriving DecidableEq

/-- FileHashes::new. -/
def FileHashes.new : FileHashes := ⟨[]⟩

/-- Shared read path of FileHashes::get_mut and FileHashes::contains_key:
look up the package path in the trie, then the inputs in the inner map. -/
def FileHashes.get (fh : FileHashes) (spec : HashSpec) : Option HashState :=
  match assocGet fh.trie spec.package_path with
  | none => none
  | some states => assocGet states spec.inputs

/-- FileHashes::contains_key. -/
def FileHashes.contains_key (fh : FileHashes) (spec : HashSpec) : Bool :=
  (fh.get spec).isSome

/-- FileHashes::insert: upsert preserving sibling specs that share the
package but differ in inputs. -/
def FileHashes.insert (fh : FileHashes) (spec : HashSpec) (st : HashState) : FileHashes :=
  match assocGet fh.trie spec.package_path with
  | some states => ⟨assocSet fh.trie spec.package_path (assocSet states spec.inputs st)⟩
  | none => ⟨fh.trie ++ [(spec.package_path, [(spec.inputs, st)])]⟩

/-- One step of the ancestor scan: keep the longer of the current best key
and the candidate, considering only keys that are prefixes of the query. -/
def gppStep (p : String) (acc : Option String) (kv : String × InnerStates) : Option String :=
  if kv.1.data.isPrefixOf p.data then
    match acc with
    | none => some kv.1
    | some best => if best.length < kv.1.length then some kv.1 else acc
  else acc

/-- FileHashes::get_package_path: Trie::get_ancestor followed by key
extraction, i.e. the longest key whose byte encoding is a prefix of the
query path and which carries a value (see the header for the byte versus
character prefix identification). -/
def FileHashes.get_package_path (fh : FileHashes) (p : String) : Option String :=
  fh.trie.foldl (gppStep p) none

/-- Replies sent while discarding one inner map in drop_matching: every
waiter of every Pending state receives Unavailable(reason). -/
def pendingSends (reason : String) (states : InnerStates) : List (WaiterId × RustResult Error GitHashes) :=
  states.flatMap (fun p =>
    match p.2 with
    | HashState.Pending _ _ txs => txs.map (fun w => (w, RustResult.err (Error.Unavailable reason)))
    | _ => [])

/-- Recursion of FileHashes::drop_matching over the key list: keys on which
the predicate holds are removed and their Pending waiters notified; other
keys are reinserted unchanged. -/
def dropMatchingList (f : String → Bool) (reason : String) :
    List (String × InnerStates) → List (String × InnerStates) × List (WaiterId × RustResult Error GitHashes)
  | [] => ([], [])
  | (k, states) :: rest =>
      let r := dropMatchingList f reason rest
      if f k then (r.1, pendingSends reason states ++ r.2)
      else ((k, states) :: r.1, r.2)

/-- FileHashes::drop_matching. -/
def FileHashes.drop_matching (fh : FileHashes) (f : String → Bool) (reason : String) :
    FileHashes × List (WaiterId × RustResult Error GitHashes) :=
  let r := dropMatchingList f reason fh.trie
  (⟨r.1⟩, r.2)

/-- FileHashes::drain: drop_matching with an always-true predicate. -/
def FileHashes.drain (fh : FileHashes) (reason : String) :
    FileHashes × List (WaiterId × RustResult Error GitHashes) :=
  fh.drop_matching (fun _ => true) reason

/-- HashUpdate message sent by a finished hash job. -/
structure HashUpdate where
  spec : HashSpec
  version : Version
  result : RustResult String GitHashes

/-- State owned by the event loop: the index plus the version issuance
counter of the model (see the header). -/
structure LoopState where
  hashes : FileHashes
  ctr : Nat
deriving DecidableEq

/-- Observable outcome of one handler invocation: the new loop state, the
replies sent in order, the hash jobs spawned (spec and stamped version, in
spawn order), and whether the handler panicked. -/
structure EventOut where
  state : LoopState
  sent : List (WaiterId × RustResult Error GitHashes)
  spawned : List (HashSpec × Version)
  panicked : Bool
deriving DecidableEq

/-- Subscriber::queue_package_hash: issue a fresh Version, create a default
debouncer, spawn the job (recorded by the caller) and return the pair plus
the advanced counter. -/
def queue_package_hash (ctr : Nat) : Version × HashDebouncer × Nat :=
  let iv := Version.issue ctr
  (iv.1, HashDebouncer.mkDefault, iv.2)

/-- Subscriber::handle_query for Query::GetHash(spec, tx).  The dropped
argument tells which waiter ids have already had their receiving end
dropped by the client; the source unwraps the send result in the Hashes
branch only, so only that branch can panic. -/
def handle_query (spec : HashSpec) (tx : WaiterId) (dropped : WaiterId → Bool)
    (s : LoopState) : EventOut :=
  match s.hashes.get spec with
  | some (HashState.Hashes h) =>
      { state := s, sent := [(tx, RustResult.ok h)], spawned := [], panicked := dropped tx }
  | some (HashState.Pending v d txs) =>
      { state := { hashes := s.hashes.insert spec (HashState.Pending v d (txs ++ [tx])), ctr := s.ctr },
        sent := [], spawned := [], panicked := false }
  | some (HashState.Unavailable e) =>
      { state := s, sent := [(tx, RustResult.err (Error.HashingError e))], spawned := [], panicked := false }
  | none =>
      { state := s, sent := [(tx, RustResult.err (Error.UnknownPackage spec))], spawned := [], panicked := false }

/-- Subscriber::handle_hash_update: apply a completion only when the entry
is Pending with an identity-equal Version; reply to every waiter in order,
then store the new state. -/
def handle_hash_update (u : HashUpdate) (s : LoopState) : EventOut :=
  match s.hashes.get u.spec with
  | some (HashState.Pending v _ txs) =>
      if v = u.version then
        match u.result with
        | RustResult.ok h =>
            { state := { hashes := s.hashes.insert u.spec (HashState.Hashes h), ctr := s.ctr },
              sent := txs.map (fun w => (w, RustResult.ok h)), spawned := [], panicked := false }
        | RustResult.err e =>
            { state := { hashes := s.hashes.insert u.spec (HashState.Unavailable e), ctr := s.ctr },
              sent := txs.map (fun w => (w, RustResult.err (Error.HashingError e))), spawned := [], panicked := false }
      else
        { state := s, sent := [], spawned := [], panicked := false }
  | _ => { state := s, sent := [], spawned := [], panicked := false }

/-- The changed_packages set of Subscriber::handle_file_event: anchor each
event path, look up its owning package, skip paths owned by no package,
and deduplicate. -/
def changedPackages (fh : FileHashes) (paths : List String) : List String :=
  paths.foldl
    (fun acc p =>
      match fh.get_package_path p with
      | none => acc
      | some pkg => if acc.contains pkg then acc else acc ++ [pkg])
    []

/-- Body of the per-package loop of Subscriber::handle_file_event for the
spec with inputs None: absent entry gets a fresh Pending with no waiters;
a Pending entry is bumped, and on bump failure replaced by a fresh Pending
carrying the moved waiter list; a Hashes or Unavailable entry is replaced
by a fresh Pending with no waiters. -/
def processChangedPackage (acc : EventOut) (pkg : String) : EventOut :=
  let spec : HashSpec := { package_path := pkg, inputs := none }
  match acc.state.hashes.get spec with
  | none =>
      let q := queue_package_hash acc.state.ctr
      { acc with
        state := { hashes := acc.state.hashes.insert spec (HashState.Pending q.1 q.2.1 []), ctr := q.2.2 },
        spawned := acc.spawned ++ [(spec, q.1)] }
  | some (HashState.Pending v d txs) =>
      let b := d.bump
      if b.1 then
        { acc with
          state := { hashes := acc.state.hashes.insert spec (HashState.Pending v b.2 txs), ctr := acc.state.ctr } }
      else
        let q := queue_package_hash acc.state.ctr
        { acc with
          state := { hashes := acc.state.hashes.insert spec (HashState.Pending q.1 q.2.1 txs), ctr := q.2.2 },
          spawned := acc.spawned ++ [(spec, q.1)] }
  | some _ =>
      let q := queue_package_hash acc.state.ctr
      { acc with
        state := { hashes := acc.state.hashes.insert spec (HashState.Pending q.1 q.2.1 []), ctr := q.2.2 },
        spawned := acc.spawned ++ [(spec, q.1)] }

/-- Subscriber::handle_file_event. -/
def handle_file_event (paths : List String) (s : LoopState) : EventOut :=
  (changedPackages s.hashes paths).foldl processChangedPackage
    { state := s, sent := [], spawned := [], panicked := false }

/-- Discovery data as the watcher consumes it: the list of package roots,
each being a workspace manifest parent directory anchored to the repo root
(the anchoring itself is done by the external turbopath crate). -/
abbrev DiscoveryData := Option (RustResult String (List String))

/-- Step of the reconciliation loop of handle_package_data_update: install
a fresh Pending entry for a package root whose default spec is absent. -/
def installPackage (acc : EventOut) (pkg : String) : EventOut :=
  let spec : HashSpec := { package_path := pkg, inputs := none }
  if acc.state.hashes.contains_key spec then acc
  else
    let q := queue_package_hash acc.state.ctr
    { acc with
      state := { hashes := acc.state.hashes.insert spec (HashState.Pending q.1 q.2.1 []), ctr := q.2.2 },
      spawned := acc.spawned ++ [(spec, q.1)] }

/-- Subscriber::handle_package_data_update. -/
def handle_package_data_update (pd : DiscoveryData) (s : LoopState) : EventOut :=
  match pd with
  | some (RustResult.ok roots) =>
      let r := s.hashes.drop_matching (fun k => !(roots.contains k)) "package was removed"
      roots.foldl installPackage
        { state := { hashes := r.1, ctr := s.ctr }, sent := r.2, spawned := [], panicked := false }
  | none =>
      let r := s.hashes.drain "package discovery is unavailable"
      { state := { hashes := r.1, ctr := s.ctr }, sent := r.2, spawned := [], panicked := false }
  | some (RustResult.err _) =>
      let r := s.hashes.drain "package discovery is unavailable"
      { state := { hashes := r.1, ctr := s.ctr }, sent := r.2, spawned := [], panicked := false }

/-- Path-component ancestry, following the words of the specification: a
key is an ancestor of a path when it equals the path or is a directory
containing it (its string followed by the path separator is a prefix of
the path).  This definition follows the specification, for comparison with
FileHashes.get_package_path, which follows the source. -/
def isComponentAncestor (k p : String) : Bool :=
  k == p || (k ++ "/").data.isPrefixOf p.data

/-- Index invariant of the C10 claim: every package key present in the trie
carries an inner entry for the default spec (inputs None). -/
def FileHashes.defaultKeyInvariant (fh : FileHashes) : Prop :=
  ∀ k states, (k, states) ∈ fh.trie → (assocGet states (none : Option GlobSet)).isSome = true

/-- Demonstration index: one package key, packages/foo, whose default spec
is Ready. -/
def demoTrie : FileHashes :=
  ⟨[("packages/foo", [(none, HashState.Hashes [("foo-file", "deadbeef")])])]⟩

/-- Demonstration loop state with a Pending entry carrying version 7 and
waiters 3 and 4. -/
def demoPendingState : LoopState :=
  { hashes := ⟨[("pkg", [(none, HashState.Pending 7 HashDebouncer.mkDefault [3, 4])])]⟩,
    ctr := 8 }

/-- Demonstration completion for the Pending entry of demoPendingState. -/
def demoUpdate : HashUpdate :=
  { spec := { package_path := "pkg", inputs := none },
    version := 7,
    result := RustResult.ok [("a", "h1")] }

theorem assocGet_set_self {α β : Type} [DecidableEq α] (l : List (α × β)) (k : α) (v : β) :
    assocGet (assocSet l k v) k = some v := by
  induction l with
  | nil => simp [assocSet, assocGet]
  | cons hd tl ih =>
      by_cases h : hd.1 = k
      · simp [assocSet, h, assocGet]
      · simp [assocSet, h, assocGet, ih]

theorem assocGet_set_other {α β : Type} [DecidableEq α] (l : List (α × β)) (k k2 : α) (v : β)
    (h : k2 ≠ k) : assocGet (assocSet l k v) k2 = assocGet l k2 := by
  have h2 : k ≠ k2 := Ne.symm h
  induction l with
  | nil => simp [assocSet, assocGet, h2]
  | cons hd tl ih =>
      by_cases hk : hd.1 = k
      · subst hk
        simp [assocSet, assocGet, h2]
      · simp only [assocSet, if_neg hk]
        by_cases hk2 : hd.1 = k2
        · simp [assocGet, hk2]
        · simp [assocGet, hk2, ih]

theorem assocGet_append_absent {α β : Type} [DecidableEq α] (l : List (α × β)) (k : α) (v : β)
    (h : assocGet l k = none) : assocGet (l ++ [(k, v)]) k = some v := by
  induction l with
  | nil => simp [assocGet]
  | cons hd tl ih =>
      by_cases hk : hd.1 = k
      · simp [assocGet, hk] at h
      · simp only [assocGet, if_neg hk] at h
        simpa [assocGet, hk] using ih h

theorem assocGet_append_other {α β : Type} [DecidableEq α] (l : List (α × β)) (k k2 : α) (v : β)
    (h : k2 ≠ k) : assocGet (l ++ [(k, v)]) k2 = assocGet l k2 := by
  have h2 : k ≠ k2 := Ne.symm h
  induction l with
  | nil => simp [assocGet, h2]
  | cons hd tl ih =>
      by_cases hk : hd.1 = k2
      · simp [assocGet, hk]
      · simpa [assocGet, hk] using ih

theorem assocGet_mem {α β : Type} [DecidableEq α] (l : List (α × β)) (k : α) (v : β)
    (h : assocGet l k = some v) : (k, v) ∈ l := by
  induction l with
  | nil => simp [assocGet] at h
  | cons hd tl ih =>
      by_cases hk : hd.1 = k
      · simp only [assocGet, if_pos hk] at h
        have heq : hd = (k, v) := by
          cases hd
          simp_all
        rw [← heq]
        exact List.mem_cons_self _ _
      · simp only [assocGet, if_neg hk] at h
        exact List.mem_cons_of_mem _ (ih h)

theorem assocGet_isSome_of_mem {α β : Type} [DecidableEq α] (l : List (α × β)) (k : α) (v : β)
    (h : (k, v) ∈ l) : ∃ v0, assocGet l k = some v0 ∧ (k, v0) ∈ l := by
  induction l with
  | nil => simp at h
  | cons hd tl ih =>
      by_cases hk : hd.1 = k
      · exact ⟨hd.2, by simp [assocGet, hk], by simp [← hk]⟩
      · rcases List.mem_cons.mp h with heq | hmem
        · rw [← heq] at hk; simp at hk
        · rcases ih hmem with ⟨v0, hget, hm⟩
          exact ⟨v0, by simp [assocGet, hk, hget], List.mem_cons_of_mem _ hm⟩

theorem mem_assocSet {α β : Type} [DecidableEq α] (l : List (α × β)) (k : α) (v : β)
    (a : α) (b : β) (h : (a, b) ∈ assocSet l k v) : (a, b) ∈ l ∨ (a = k ∧ b = v) := by
  induction l with
  | nil => simp [assocSet] at h; right; exact h
  | cons hd tl ih =>
      by_cases hk : hd.1 = k
      · simp only [assocSet, if_pos hk] at h
        rcases List.mem_cons.mp h with heq | hmem
        · right; simpa using heq
        · left; exact List.mem_cons_of_mem _ hmem
      · simp only [assocSet, if_neg hk] at h
        rcases List.mem_cons.mp h with heq | hmem
        · left; exact List.mem_cons.mpr (Or.inl heq)
        · rcases ih hmem with hl | hr
          · left; exact List.mem_cons_of_mem _ hl
          · right; exact hr

theorem HashSpec.inputs_ne (s1 s2 : HashSpec) (hne : s1 ≠ s2)
    (hp : s1.package_path = s2.package_path) : s1.inputs ≠ s2.inputs := by
  intro hi
  apply hne
  cases s1; cases s2
  simp_all

theorem FileHashes.get_insert_self (fh : FileHashes) (spec : HashSpec) (st : HashState) :
    (fh.insert spec st).get spec = some st := by
  unfold FileHashes.insert FileHashes.get
  cases hg : assocGet fh.trie spec.package_path with
  | none => simp [assocGet_append_absent _ _ _ hg, assocGet]
  | some states => simp [assocGet_set_self]

theorem FileHashes.get_insert_other (fh : FileHashes) (spec spec2 : HashSpec) (st : HashState)
    (h : spec2 ≠ spec) : (fh.insert spec st).get spec2 = fh.get spec2 := by
  unfold FileHashes.insert FileHashes.get
  cases hg : assocGet fh.trie spec.package_path with
  | none =>
      by_cases hp : spec2.package_path = spec.package_path
      · rw [hp, assocGet_append_absent _ _ _ hg, hg]
        have hi := HashSpec.inputs_ne spec2 spec h hp
        simp [assocGet, Ne.symm hi]
      · rw [assocGet_append_other _ _ _ _ hp]
  | some states =>
      by_cases hp : spec2.package_path = spec.package_path
      · rw [hp, assocGet_set_self, hg]
        have hi := HashSpec.inputs_ne spec2 spec h hp
        simp [assocGet_set_other _ _ _ _ hi]
      · rw [assocGet_set_other _ _ _ _ hp]

theorem FileHashes.contains_of_get (fh : FileHashes) (spec : HashSpec) (st : HashState)
    (h : fh.get spec = some st) : fh.contains_key spec = true := by
  simp [FileHashes.contains_key, h]

theorem dropMatchingList_fst (f : String → Bool) (reason : String)
    (l : List (String × InnerStates)) :
    (dropMatchingList f reason l).1 = l.filter (fun kv => !f kv.1) := by
  induction l with
  | nil => simp [dropMatchingList]
  | cons hd tl ih =>
      cases hd with
      | mk k states =>
          by_cases hf : f k
          · simp [dropMatchingList, hf, List.filter, ih]
          · simp [dropMatchingList, hf, List.filter, ih]

theorem mem_pendingSends (reason : String) (states : InnerStates)
    (i : Option GlobSet) (v : Version) (d : HashDebouncer) (ws : List WaiterId) (w : WaiterId)
    (hm : (i, HashState.Pending v d ws) ∈ states) (hw : w ∈ ws) :
    (w, RustResult.err (Error.Unavailable reason)) ∈ pendingSends reason states := by
  unfold pendingSends
  refine List.mem_flatMap.mpr ⟨(i, HashState.Pending v d ws), hm, ?_⟩
  exact List.mem_map.mpr ⟨w, hw, rfl⟩

theorem dropMatchingList_sends_mem (f : String → Bool) (reason : String)
    (l : List (String × InnerStates)) (k : String) (states : InnerStates)
    (i : Option GlobSet) (v : Version) (d : HashDebouncer) (ws : List WaiterId) (w : WaiterId)
    (hm : (k, states) ∈ l) (hf : f k = true)
    (hs : (i, HashState.Pending v d ws) ∈ states) (hw : w ∈ ws) :
    (w, RustResult.err (Error.Unavailable reason)) ∈ (dropMatchingList f reason l).2 := by
  induction l with
  | nil => simp at hm
  | cons hd tl ih =>
      rcases List.mem_cons.mp hm with heq | hmem
      · rw [← heq]
        simp only [dropMatchingList, hf, if_pos]
        exact List.mem_append.mpr (Or.inl (mem_pendingSends reason states i v d ws w hs hw))
      · cases hd with
        | mk k2 states2 =>
            by_cases hf2 : f k2
            · simp only [dropMatchingList, if_pos hf2]
              exact List.mem_append.mpr (Or.inr (ih hmem))
            · simp only [dropMatchingList, if_neg hf2]
              exact ih hmem

theorem dropMatchingList_sends_shape (f : String → Bool) (reason : String)
    (l : List (String × InnerStates)) :
    ∀ x ∈ (dropMatchingList f reason l).2, x.2 = RustResult.err (Error.Unavailable reason) := by
  induction l with
  | nil => simp [dropMatchingList]
  | cons hd tl ih =>
      intro x hx
      cases hd with
      | mk k states =>
          by_cases hf : f k
          · simp only [dropMatchingList, if_pos hf] at hx
            rcases List.mem_append.mp hx with hl | hr
            · unfold pendingSends at hl
              rcases List.mem_flatMap.mp hl with ⟨p, _, hp2⟩
              rcases p with ⟨i, st⟩
              cases st with
              | Pending v d ws =>
                  simp only at hp2
                  rcases List.mem_map.mp hp2 with ⟨w, _, hw2⟩
                  rw [← hw2]
              | Hashes h => simp at hp2
              | Unavailable r => simp at hp2
            · exact ih x hr
          · simp only [dropMatchingList, if_neg hf] at hx
            exact ih x hx

theorem str_eq_of_isPrefixOf_len (p a b : String)
    (ha : a.data.isPrefixOf p.data = true) (hb : b.data.isPrefixOf p.data = true)
    (hl : a.length = b.length) : a = b := by
  have ha2 : a.data <+: p.data := List.isPrefixOf_iff_prefix.mp ha
  have hb2 : b.data <+: p.data := List.isPrefixOf_iff_prefix.mp hb
  have hlen : a.data.length = b.data.length := hl
  have hab : a.data <+: b.data :=
    List.prefix_of_prefix_length_le ha2 hb2 (Nat.le_of_eq hlen)
  have : a.data = b.data := List.IsPrefix.eq_of_length hab hlen
  cases a; cases b
  exact congrArg String.mk this

theorem gppStep_cases (p : String) (acc : Option String) (kv : String × InnerStates) (a : String)
    (h : gppStep p acc kv = some a) : acc = some a ∨ a = kv.1 := by
  cases acc with
  | none =>
      by_cases hpre : kv.1.data.isPrefixOf p.data
      · right
        simp [gppStep, hpre] at h
        exact h.symm
      · simp [gppStep, hpre] at h
  | some best =>
      by_cases hpre : kv.1.data.isPrefixOf p.data
      · by_cases hlt : best.length < kv.1.length
        · right
          simp [gppStep, hpre, hlt] at h
          exact h.symm
        · left
          simp [gppStep, hpre, hlt] at h
          rw [h]
      · left
        simp [gppStep, hpre] at h
        rw [h]

theorem gppStep_keeps (p : String) (acc : Option String) (kv : String × InnerStates)
    (hacc : ∀ a, acc = some a → a.data.isPrefixOf p.data = true) :
    ∀ a, gppStep p acc kv = some a → a.data.isPrefixOf p.data = true := by
  intro a h
  cases acc with
  | none =>
      by_cases hpre : kv.1.data.isPrefixOf p.data
      · simp [gppStep, hpre] at h
        rw [← h]
        exact hpre
      · simp [gppStep, hpre] at h
  | some best =>
      by_cases hpre : kv.1.data.isPrefixOf p.data
      · by_cases hlt : best.length < kv.1.length
        · simp [gppStep, hpre, hlt] at h
          rw [← h]
          exact hpre
        · simp [gppStep, hpre, hlt] at h
          exact hacc a (by rw [h])
      · simp [gppStep, hpre] at h
        exact hacc a (by rw [h])

theorem gppStep_grows (p : String) (acc : Option String) (kv : String × InnerStates) (b : String)
    (hb : acc = some b) : ∃ c, gppStep p acc kv = some c ∧ b.length ≤ c.length := by
  subst hb
  by_cases hpre : kv.1.data.isPrefixOf p.data
  · by_cases hlt : b.length < kv.1.length
    · exact ⟨kv.1, by simp [gppStep, hpre, hlt], Nat.le_of_lt hlt⟩
    · exact ⟨b, by simp [gppStep, hpre, hlt], Nat.le_refl _⟩
  · exact ⟨b, by simp [gppStep, hpre], Nat.le_refl _⟩

theorem gppStep_takes (p : String) (acc : Option String) (kv : String × InnerStates)
    (hpre : kv.1.data.isPrefixOf p.data = true) :
    ∃ c, gppStep p acc kv = some c ∧ kv.1.length ≤ c.length := by
  cases acc with
  | none => exact ⟨kv.1, by simp [gppStep, hpre], Nat.le_refl _⟩
  | some best =>
      by_cases hlt : best.length < kv.1.length
      · exact ⟨kv.1, by simp [gppStep, hpre, hlt], Nat.le_refl _⟩
      · exact ⟨best, by simp [gppStep, hpre, hlt], Nat.le_of_not_lt hlt⟩

theorem gppFold_spec (p : String) (l : List (String × InnerStates)) :
    ∀ (acc : Option String),
    (∀ a, acc = some a → a.data.isPrefixOf p.data = true) →
    (∀ a, List.foldl (gppStep p) acc l = some a →
        a.data.isPrefixOf p.data = true ∧ (acc = some a ∨ ∃ sts, (a, sts) ∈ l))
  ∧ (∀ kv ∈ l, kv.1.data.isPrefixOf p.data = true →
        ∃ a, List.foldl (gppStep p) acc l = some a ∧ kv.1.length ≤ a.length)
  ∧ (∀ b, acc = some b →
        ∃ a, List.foldl (gppStep p) acc l = some a ∧ b.length ≤ a.length) := by
  induction l with
  | nil =>
      intro acc hacc
      refine ⟨?_, ?_, ?_⟩
      · intro a h
        exact ⟨hacc a h, Or.inl h⟩
      · intro kv hkv
        simp at hkv
      · intro b hb
        exact ⟨b, hb, Nat.le_refl _⟩
  | cons kv tl ih =>
      intro acc hacc
      have hacc2 := gppStep_keeps p acc kv hacc
      rcases ih (gppStep p acc kv) hacc2 with ⟨ih1, ih2, ih3⟩
      refine ⟨?_, ?_, ?_⟩
      · intro a h
        rw [List.foldl_cons] at h
        rcases ih1 a h with ⟨hp, hrest⟩
        refine ⟨hp, ?_⟩
        rcases hrest with hstep | ⟨sts, hsts⟩
        · rcases gppStep_cases p acc kv a hstep with hl | hr
          · exact Or.inl hl
          · right
            exact ⟨kv.2, by rw [hr]; exact List.mem_cons_self _ _⟩
        · exact Or.inr ⟨sts, List.mem_cons_of_mem _ hsts⟩
      · intro kv2 hkv2 hpre2
        rw [List.foldl_cons]
        rcases List.mem_cons.mp hkv2 with heq | hmem
        · rcases gppStep_takes p acc kv (by rw [← heq] at *; exact hpre2) with ⟨c, hc, hlen⟩
          rcases ih3 c hc with ⟨a, ha, hca⟩
          rw [heq]
          exact ⟨a, ha, Nat.le_trans hlen hca⟩
        · exact ih2 kv2 hmem hpre2
      · intro b hb
        rw [List.foldl_cons]
        rcases gppStep_grows p acc kv b hb with ⟨c, hc, hbc⟩
        rcases ih3 c hc with ⟨a, ha, hca⟩
        exact ⟨a, ha, Nat.le_trans hbc hca⟩

theorem get_package_path_iff (fh : FileHashes) (p k : String) :
    fh.get_package_path p = some k ↔
      ((∃ sts, (k, sts) ∈ fh.trie) ∧ k.data.isPrefixOf p.data = true ∧
        ∀ k2 sts2, (k2, sts2) ∈ fh.trie → k2.data.isPrefixOf p.data = true →
          k2.length ≤ k.length) := by
  have hbase : ∀ a : String, (none : Option String) = some a → a.data.isPrefixOf p.data = true := by
    intro a h; simp at h
  rcases gppFold_spec p fh.trie none hbase with ⟨h1, h2, _⟩
  constructor
  · intro h
    rcases h1 k h with ⟨hp, hmem⟩
    rcases hmem with habs | hmem
    · simp at habs
    · refine ⟨hmem, hp, ?_⟩
      intro k2 sts2 hm2 hp2
      rcases h2 (k2, sts2) hm2 hp2 with ⟨a, ha, hlen⟩
      rw [FileHashes.get_package_path] at h
      rw [h] at ha
      have : a = k := by simpa using ha.symm
      rw [← this]
      exact hlen
  · rintro ⟨⟨sts, hsts⟩, hpre, hmax⟩
    rcases h2 (k, sts) hsts hpre with ⟨a, ha, hka⟩
    rcases h1 a ha with ⟨hpa, hmema⟩
    rcases hmema with habs | ⟨stsa, hstsa⟩
    · simp at habs
    · have hak : a.length ≤ k.length := hmax a stsa hstsa hpa
      have : a = k := str_eq_of_isPrefixOf_len p a k hpa hpre (Nat.le_antisymm hak hka)
      rw [FileHashes.get_package_path]
      rw [ha, this]

theorem get_package_path_mem (fh : FileHashes) (p k : String)
    (h : fh.get_package_path p = some k) : ∃ sts, (k, sts) ∈ fh.trie :=
  ((get_package_path_iff fh p k).mp h).1

theorem changedPackages_go_mem (fh : FileHashes) (paths : List String) :
    ∀ (acc : List String) (x : String),
      x ∈ paths.foldl
        (fun acc p =>
          match fh.get_package_path p with
          | none => acc
          | some pkg => if acc.contains pkg then acc else acc ++ [pkg]) acc ↔
      x ∈ acc ∨ ∃ p ∈ paths, fh.get_package_path p = some x := by
  induction paths with
  | nil => intro acc x; simp
  | cons hd tl ih =>
      intro acc x
      rw [List.foldl_cons]
      cases hg : fh.get_package_path hd with
      | none =>
          simp only [hg]
          rw [ih]
          constructor
          · rintro (hx | ⟨p, hp, hgp⟩)
            · exact Or.inl hx
            · exact Or.inr ⟨p, List.mem_cons_of_mem _ hp, hgp⟩
          · rintro (hx | ⟨p, hp, hgp⟩)
            · exact Or.inl hx
            · rcases List.mem_cons.mp hp with heq | hmem
              · rw [heq] at hgp; rw [hgp] at hg; exact absurd hg (by simp)
              · exact Or.inr ⟨p, hmem, hgp⟩
      | some pkg =>
          simp only [hg]
          by_cases hc : acc.contains pkg
          · simp only [if_pos hc]
            rw [ih]
            have hmemc : pkg ∈ acc := List.elem_iff.mp hc
            constructor
            · rintro (hx | ⟨p, hp, hgp⟩)
              · exact Or.inl hx
              · exact Or.inr ⟨p, List.mem_cons_of_mem _ hp, hgp⟩
            · rintro (hx | ⟨p, hp, hgp⟩)
              · exact Or.inl hx
              · rcases List.mem_cons.mp hp with heq | hmem
                · rw [heq] at hgp; rw [hgp] at hg
                  have : pkg = x := by simpa using hg.symm
                  exact Or.inl (this ▸ hmemc)
                · exact Or.inr ⟨p, hmem, hgp⟩
          · simp only [if_neg hc]
            rw [ih]
            constructor
            · rintro (hx | ⟨p, hp, hgp⟩)
              · rcases List.mem_append.mp hx with hl | hr
                · exact Or.inl hl
                · have : x = pkg := by simpa using hr
                  exact Or.inr ⟨hd, List.mem_cons_self _ _, by rw [this]; exact hg⟩
              · exact Or.inr ⟨p, List.mem_cons_of_mem _ hp, hgp⟩
            · rintro (hx | ⟨p, hp, hgp⟩)
              · exact Or.inl (List.mem_append.mpr (Or.inl hx))
              · rcases List.mem_cons.mp hp with heq | hmem
                · rw [heq] at hgp; rw [hgp] at hg
                  have : pkg = x := by simpa using hg.symm
                  exact Or.inl (List.mem_append.mpr (Or.inr (by simp [this])))
                · exact Or.inr ⟨p, hmem, hgp⟩

theorem changedPackages_mem (fh : FileHashes) (paths : List String) (x : String) :
    x ∈ changedPackages fh paths ↔ ∃ p ∈ paths, fh.get_package_path p = some x := by
  unfold changedPackages
  rw [changedPackages_go_mem fh paths [] x]
  simp

theorem changedPackages_go_nodup (fh : FileHashes) (paths : List String) :
    ∀ (acc : List String), acc.Nodup →
      (paths.foldl
        (fun acc p =>
          match fh.get_package_path p with
          | none => acc
          | some pkg => if acc.contains pkg then acc else acc ++ [pkg]) acc).Nodup := by
  induction paths with
  | nil => intro acc h; simpa using h
  | cons hd tl ih =>
      intro acc h
      rw [List.foldl_cons]
      cases hg : fh.get_package_path hd with
      | none => simp only [hg]; exact ih acc h
      | some pkg =>
          simp only [hg]
          by_cases hc : acc.contains pkg
          · simp only [if_pos hc]; exact ih acc h
          · simp only [if_neg hc]
            apply ih
            rw [List.nodup_append]
            refine ⟨h, List.nodup_singleton _, ?_⟩
            intro a ha hb
            have : a = pkg := by simpa using hb
            rw [this] at ha
            exact hc (List.elem_iff.mpr ha)

theorem changedPackages_nodup (fh : FileHashes) (paths : List String) :
    (changedPackages fh paths).Nodup :=
  changedPackages_go_nodup fh paths [] (List.nodup_nil)

theorem bumpSeq_dead (d : HashDebouncer) (ts : List Nat) (h : d.serial = none) :
    bumpSeq d ts = (List.replicate ts.length false, d) := by
  induction ts with
  | nil => simp [bumpSeq]
  | cons t tl ih =>
      have hb : d.bump = (false, d) := by
        unfold HashDebouncer.bump
        rw [h]
      simp [bumpSeq, hb, ih, List.replicate_succ]

theorem bumpSeq_live (T n : Nat) (ts : List Nat) :
    bumpSeq { serial := some n, timeout := T } ts =
      (List.replicate ts.length true, { serial := some (n + ts.length), timeout := T }) := by
  induction ts generalizing n with
  | nil => simp [bumpSeq]
  | cons t tl ih =>
      have hb : ({ serial := some n, timeout := T } : HashDebouncer).bump =
          (true, { serial := some (n + 1), timeout := T }) := rfl
      simp only [bumpSeq, hb, ih (n + 1), List.replicate_succ, List.length_cons]
      have : n + 1 + tl.length = n + (tl.length + 1) := by omega
      rw [this]

theorem debounceRun_burst (T : Nat) (ts : List Nat) :
    ∀ (n deadline : Nat), burstWithin T deadline ts = true →
    debounceRun { serial := some n, timeout := T } deadline ts =
      (List.replicate ts.length true, lastDeadline T deadline ts,
        { serial := none, timeout := T }) := by
  induction ts with
  | nil => intro n deadline _; simp [debounceRun, lastDeadline]
  | cons t tl ih =>
      intro n deadline hb
      unfold burstWithin at hb
      rw [Bool.and_eq_true] at hb
      have ht : t < deadline := of_decide_eq_true hb.1
      have htl := hb.2
      unfold debounceRun
      rw [if_pos ht]
      have hbump : ({ serial := some n, timeout := T } : HashDebouncer).bump =
          (true, { serial := some (n + 1), timeout := T }) := rfl
      simp only [hbump]
      rw [ih (n + 1) (t + T) htl]
      simp [lastDeadline, List.replicate_succ]

theorem lastDeadline_getLast (T : Nat) (ts : List Nat) :
    ∀ (init : Nat) (h : ts ≠ []), lastDeadline T init ts = ts.getLast h + T := by
  induction ts with
  | nil => intro init h; exact absurd rfl h
  | cons t tl ih =>
      intro init h
      cases tl with
      | nil => simp [lastDeadline]
      | cons t2 tl2 =>
          have h2 : t2 :: tl2 ≠ [] := by simp
          rw [List.getLast_cons h2]
          unfold lastDeadline at *
          rw [List.foldl_cons]
          exact ih (t + T) h2

theorem FileHashes.trie_isSome_of_get (fh : FileHashes) (spec : HashSpec) (st : HashState)
    (h : fh.get spec = some st) : (assocGet fh.trie spec.package_path).isSome = true := by
  unfold FileHashes.get at h
  cases hg : assocGet fh.trie spec.package_path with
  | none => rw [hg] at h; simp at h
  | some states => simp

theorem invariant_new : FileHashes.new.defaultKeyInvariant := by
  intro k states h
  simp [FileHashes.new] at h

theorem invariant_insert (fh : FileHashes) (spec : HashSpec) (st : HashState)
    (h : fh.defaultKeyInvariant)
    (hcase : spec.inputs = none ∨ (assocGet fh.trie spec.package_path).isSome = true) :
    (fh.insert spec st).defaultKeyInvariant := by
  unfold FileHashes.insert
  cases hg : assocGet fh.trie spec.package_path with
  | none =>
      intro k states hm
      rcases List.mem_append.mp hm with hl | hr
      · exact h k states hl
      · have heq : (k, states) = (spec.package_path, [(spec.inputs, st)]) := by simpa using hr
        have hst : states = [(spec.inputs, st)] := congrArg Prod.snd heq
        have hin : spec.inputs = none := by
          rcases hcase with hc | hc
          · exact hc
          · rw [hg] at hc; simp at hc
        rw [hst, hin]
        simp [assocGet]
  | some states0 =>
      intro k states hm
      rcases mem_assocSet _ _ _ _ _ hm with hl | ⟨hk, hs⟩
      · exact h k states hl
      · rw [hs]
        cases hin : spec.inputs with
        | none => rw [← hin, assocGet_set_self]; simp
        | some g =>
            rw [← hin]
            have hne : (none : Option GlobSet) ≠ spec.inputs := by rw [hin]; simp
            rw [assocGet_set_other _ _ _ _ hne]
            exact h spec.package_path states0 (assocGet_mem _ _ _ hg)

theorem invariant_dropMatching (fh : FileHashes) (f : String → Bool) (reason : String)
    (h : fh.defaultKeyInvariant) : (fh.drop_matching f reason).1.defaultKeyInvariant := by
  intro k states hm
  unfold FileHashes.drop_matching at hm
  simp only at hm
  rw [dropMatchingList_fst] at hm
  exact h k states (List.mem_of_mem_filter hm)

theorem invariant_handle_query (spec : HashSpec) (tx : WaiterId) (dropped : WaiterId → Bool)
    (s : LoopState) (h : s.hashes.defaultKeyInvariant) :
    (handle_query spec tx dropped s).state.hashes.defaultKeyInvariant := by
  unfold handle_query
  cases hg : s.hashes.get spec with
  | none => exact h
  | some st =>
      cases st with
      | Hashes hs => exact h
      | Unavailable e => exact h
      | Pending v d txs =>
          exact invariant_insert _ _ _ h
            (Or.inr (FileHashes.trie_isSome_of_get _ _ _ hg))

theorem invariant_handle_hash_update (u : HashUpdate) (s : LoopState)
    (h : s.hashes.defaultKeyInvariant) :
    (handle_hash_update u s).state.hashes.defaultKeyInvariant := by
  cases hg : s.hashes.get u.spec with
  | none => simp only [handle_hash_update, hg]; exact h
  | some st =>
      cases st with
      | Hashes hs => simp only [handle_hash_update, hg]; exact h
      | Unavailable e => simp only [handle_hash_update, hg]; exact h
      | Pending v d txs =>
          by_cases hv : v = u.version
          · simp only [handle_hash_update, hg, if_pos hv]
            cases u.result with
            | ok hh =>
                exact invariant_insert _ _ _ h
                  (Or.inr (FileHashes.trie_isSome_of_get _ _ _ hg))
            | err e =>
                exact invariant_insert _ _ _ h
                  (Or.inr (FileHashes.trie_isSome_of_get _ _ _ hg))
          · simp only [handle_hash_update, hg, if_neg hv]
            exact h

theorem invariant_processChangedPackage (acc : EventOut) (pkg : String)
    (h : acc.state.hashes.defaultKeyInvariant) :
    (processChangedPackage acc pkg).state.hashes.defaultKeyInvariant := by
  cases hg : acc.state.hashes.get { package_path := pkg, inputs := none } with
  | none =>
      simp only [processChangedPackage, hg]
      exact invariant_insert _ _ _ h (Or.inl rfl)
  | some st =>
      cases st with
      | Hashes hs =>
          simp only [processChangedPackage, hg]
          exact invariant_insert _ _ _ h (Or.inl rfl)
      | Unavailable e =>
          simp only [processChangedPackage, hg]
          exact invariant_insert _ _ _ h (Or.inl rfl)
      | Pending v d txs =>
          by_cases hbv : (d.bump).1
          · simp only [processChangedPackage, hg, if_pos hbv]
            exact invariant_insert _ _ _ h (Or.inl rfl)
          · simp only [processChangedPackage, hg, if_neg hbv]
            exact invariant_insert _ _ _ h (Or.inl rfl)

theorem invariant_handle_file_event (paths : List String) (s : LoopState)
    (h : s.hashes.defaultKeyInvariant) :
    (handle_file_event paths s).state.hashes.defaultKeyInvariant := by
  unfold handle_file_event
  generalize changedPackages s.hashes paths = pkgs
  have hgen : ∀ (acc : EventOut), acc.state.hashes.defaultKeyInvariant →
      (pkgs.foldl processChangedPackage acc).state.hashes.defaultKeyInvariant := by
    induction pkgs with
    | nil => intro acc ha; simpa using ha
    | cons hd tl ih =>
        intro acc ha
        rw [List.foldl_cons]
        exact ih _ (invariant_processChangedPackage acc hd ha)
  exact hgen _ h

theorem invariant_installPackage (acc : EventOut) (pkg : String)
    (h : acc.state.hashes.defaultKeyInvariant) :
    (installPackage acc pkg).state.hashes.defaultKeyInvariant := by
  unfold installPackage
  by_cases hc : acc.state.hashes.contains_key { package_path := pkg, inputs := none }
  · simpa [hc] using h
  · simp only [hc]
    simp only [Bool.false_eq_true, if_false]
    exact invariant_insert _ _ _ h (Or.inl rfl)

theorem invariant_handle_package_data_update (pd : DiscoveryData) (s : LoopState)
    (h : s.hashes.defaultKeyInvariant) :
    (handle_package_data_update pd s).state.hashes.defaultKeyInvariant := by
  unfold handle_package_data_update
  cases pd with
  | none => exact invariant_dropMatching _ _ _ h
  | some r =>
      cases r with
      | err e => exact invariant_dropMatching _ _ _ h
      | ok roots =>
          have hgen : ∀ (l : List String) (acc : EventOut),
              acc.state.hashes.defaultKeyInvariant →
              (l.foldl installPackage acc).state.hashes.defaultKeyInvariant := by
            intro l
            induction l with
            | nil => intro acc ha; simpa using ha
            | cons hd tl ih =>
                intro acc ha
                rw [List.foldl_cons]
                exact ih _ (invariant_installPackage acc hd ha)
          exact hgen roots _ (invariant_dropMatching _ _ _ h)

theorem invariant_get_default (fh : FileHashes) (k : String)
    (h : fh.defaultKeyInvariant) (hm : ∃ sts, (k, sts) ∈ fh.trie) :
    (fh.get { package_path := k, inputs := none }).isSome = true := by
  rcases hm with ⟨sts, hsts⟩
  rcases assocGet_isSome_of_mem fh.trie k sts hsts with ⟨sts0, hget, hmem0⟩
  unfold FileHashes.get
  simp only [hget]
  exact h k sts0 hmem0

theorem processChangedPackage_keeps_isSome (acc : EventOut) (pkg : String) (spec : HashSpec)
    (h : (acc.state.hashes.get spec).isSome = true) :
    ((processChangedPackage acc pkg).state.hashes.get spec).isSome = true := by
  by_cases hspec : spec = { package_path := pkg, inputs := none }
  · cases hg : acc.state.hashes.get { package_path := pkg, inputs := none } with
    | none =>
        simp only [processChangedPackage, hg, hspec]
        simp [FileHashes.get_insert_self]
    | some st =>
        cases st with
        | Hashes hs =>
            simp only [processChangedPackage, hg, hspec]
            simp [FileHashes.get_insert_self]
        | Unavailable e =>
            simp only [processChangedPackage, hg, hspec]
            simp [FileHashes.get_insert_self]
        | Pending v d txs =>
            by_cases hbv : (d.bump).1
            · simp only [processChangedPackage, hg, if_pos hbv, hspec]
              simp [FileHashes.get_insert_self]
            · simp only [processChangedPackage, hg, if_neg hbv, hspec]
              simp [FileHashes.get_insert_self]
  · cases hg : acc.state.hashes.get { package_path := pkg, inputs := none } with
    | none =>
        simp only [processChangedPackage, hg]
        rw [FileHashes.get_insert_other _ _ _ _ hspec]
        exact h
    | some st =>
        cases st with
        | Hashes hs =>
            simp only [processChangedPackage, hg]
            rw [FileHashes.get_insert_other _ _ _ _ hspec]
            exact h
        | Unavailable e =>
            simp only [processChangedPackage, hg]
            rw [FileHashes.get_insert_other _ _ _ _ hspec]
            exact h
        | Pending v d txs =>
            by_cases hbv : (d.bump).1
            · simp only [processChangedPackage, hg, if_pos hbv]
              rw [FileHashes.get_insert_other _ _ _ _ hspec]
              exact h
            · simp only [processChangedPackage, hg, if_neg hbv]
              rw [FileHashes.get_insert_other _ _ _ _ hspec]
              exact h

theorem installPackage_get_other (acc : EventOut) (pkg : String) (spec : HashSpec)
    (hne : spec ≠ { package_path := pkg, inputs := none }) :
    (installPackage acc pkg).state.hashes.get spec = acc.state.hashes.get spec := by
  unfold installPackage
  by_cases hc : acc.state.hashes.contains_key { package_path := pkg, inputs := none }
  · rw [if_pos hc]
  · rw [if_neg hc]
    exact FileHashes.get_insert_other _ _ _ _ hne

theorem installPackage_get_contained (acc : EventOut) (pkg : String) (spec : HashSpec)
    (hc : acc.state.hashes.contains_key spec = true) :
    (installPackage acc pkg).state.hashes.get spec = acc.state.hashes.get spec := by
  by_cases hspec : spec = { package_path := pkg, inputs := none }
  · unfold installPackage
    rw [← hspec, if_pos hc]
  · exact installPackage_get_other acc pkg spec hspec

theorem installPackage_contains_self (acc : EventOut) (pkg : String) :
    (installPackage acc pkg).state.hashes.contains_key
      { package_path := pkg, inputs := none } = true := by
  unfold installPackage
  by_cases hc : acc.state.hashes.contains_key { package_path := pkg, inputs := none }
  · rw [if_pos hc]; exact hc
  · rw [if_neg hc]
    simp only [FileHashes.contains_key, FileHashes.get_insert_self]
    rfl

theorem installPackage_spawned_mono (acc : EventOut) (pkg : String)
    (x : HashSpec × Version) (h : x ∈ acc.spawned) :
    x ∈ (installPackage acc pkg).spawned := by
  unfold installPackage
  by_cases hc : acc.state.hashes.contains_key { package_path := pkg, inputs := none }
  · rw [if_pos hc]; exact h
  · rw [if_neg hc]
    exact List.mem_append.mpr (Or.inl h)

theorem foldl_install_pres (roots : List String) :
    ∀ (acc : EventOut) (spec : HashSpec),
      acc.state.hashes.contains_key spec = true →
      (roots.foldl installPackage acc).state.hashes.get spec = acc.state.hashes.get spec := by
  induction roots with
  | nil => intro acc spec _; rfl
  | cons hd tl ih =>
      intro acc spec hc
      rw [List.foldl_cons]
      have hstep := installPackage_get_contained acc hd spec hc
      have hc2 : (installPackage acc hd).state.hashes.contains_key spec = true := by
        simp only [FileHashes.contains_key] at *
        rw [hstep]
        exact hc
      rw [ih _ _ hc2, hstep]

theorem foldl_install_contains (roots : List String) :
    ∀ (acc : EventOut) (p : String), p ∈ roots →
      (roots.foldl installPackage acc).state.hashes.contains_key
        { package_path := p, inputs := none } = true := by
  induction roots with
  | nil => intro acc p h; simp at h
  | cons hd tl ih =>
      intro acc p h
      rw [List.foldl_cons]
      rcases List.mem_cons.mp h with heq | hmem
      · rw [heq]
        have hself := installPackage_contains_self acc hd
        simp only [FileHashes.contains_key] at *
        rw [foldl_install_pres tl _ _ hself]
        exact hself
      · exact ih _ p hmem

theorem foldl_install_spawned_mono (roots : List String) :
    ∀ (acc : EventOut) (x : HashSpec × Version), x ∈ acc.spawned →
      x ∈ (roots.foldl installPackage acc).spawned := by
  induction roots with
  | nil => intro acc x h; exact h
  | cons hd tl ih =>
      intro acc x h
      rw [List.foldl_cons]
      exact ih _ x (installPackage_spawned_mono acc hd x h)

theorem installPackage_installs (acc : EventOut) (pkg : String)
    (hc : acc.state.hashes.contains_key { package_path := pkg, inputs := none } = false) :
    (installPackage acc pkg).state.hashes.get { package_path := pkg, inputs := none } =
      some (HashState.Pending acc.state.ctr HashDebouncer.mkDefault [])
    ∧ ({ package_path := pkg, inputs := none }, (acc.state.ctr : Version)) ∈
        (installPackage acc pkg).spawned := by
  unfold installPackage
  have hcf : ¬ acc.state.hashes.contains_key { package_path := pkg, inputs := none } = true := by
    rw [hc]; simp
  rw [if_neg hcf]
  constructor
  · exact FileHashes.get_insert_self _ _ _
  · simp [queue_package_hash, Version.issue]

theorem foldl_install_fresh (roots : List String) :
    ∀ (acc : EventOut) (p : String), p ∈ roots →
      acc.state.hashes.contains_key { package_path := p, inputs := none } = false →
      ∃ v : Version,
        (roots.foldl installPackage acc).state.hashes.get
          { package_path := p, inputs := none } =
            some (HashState.Pending v HashDebouncer.mkDefault [])
        ∧ ({ package_path := p, inputs := none }, v) ∈ (roots.foldl installPackage acc).spawned := by
  induction roots with
  | nil => intro acc p h; simp at h
  | cons hd tl ih =>
      intro acc p h hc
      rw [List.foldl_cons]
      by_cases heq : p = hd
      · rw [← heq] at *
        rcases installPackage_installs acc p hc with ⟨hget, hsp⟩
        have hc2 : (installPackage acc p).state.hashes.contains_key
            { package_path := p, inputs := none } = true := by
          simp only [FileHashes.contains_key, hget]
          rfl
        refine ⟨acc.state.ctr, ?_, ?_⟩
        · rw [foldl_install_pres tl _ _ hc2, hget]
        · exact foldl_install_spawned_mono tl _ _ hsp
      · have hmem : p ∈ tl := by
          rcases List.mem_cons.mp h with he | hm
          · exact absurd he heq
          · exact hm
        have hc2 : (installPackage acc hd).state.hashes.contains_key
            { package_path := p, inputs := none } = false := by
          have hne : ({ package_path := p, inputs := none } : HashSpec) ≠
              { package_path := hd, inputs := none } := by
            intro hx
            apply heq
            exact congrArg HashSpec.package_path hx
          simp only [FileHashes.contains_key] at *
          rw [installPackage_get_other acc hd _ hne]
          exact hc
        exact ih _ p hmem hc2

/-- C1: a HashUpdate is discarded, leaving the index unchanged and sending
nothing, when the entry is absent, not Pending, or Pending under a
different Version; when the entry is Pending under the identity-equal
Version, on Ok every waiter receives Ok with the hashes (in waiter order)
and the state becomes Ready, and on Err every waiter receives
Err(HashingError(e.to_string())) and the state becomes
Unavailable(e.to_string()); the reply list is drained before the stored
state changes (the output list is completed first in the model). -/
theorem C1_hash_completion_applied (u : HashUpdate) (s : LoopState) :
    (s.hashes.get u.spec = none →
        handle_hash_update u s = { state := s, sent := [], spawned := [], panicked := false })
  ∧ (∀ h, s.hashes.get u.spec = some (HashState.Hashes h) →
        handle_hash_update u s = { state := s, sent := [], spawned := [], panicked := false })
  ∧ (∀ r, s.hashes.get u.spec = some (HashState.Unavailable r) →
        handle_hash_update u s = { state := s, sent := [], spawned := [], panicked := false })
  ∧ (∀ v d txs, s.hashes.get u.spec = some (HashState.Pending v d txs) → v ≠ u.version →
        handle_hash_update u s = { state := s, sent := [], spawned := [], panicked := false })
  ∧ (∀ d txs h, s.hashes.get u.spec = some (HashState.Pending u.version d txs) →
        u.result = RustResult.ok h →
        handle_hash_update u s =
          { state := { hashes := s.hashes.insert u.spec (HashState.Hashes h), ctr := s.ctr },
            sent := txs.map (fun w => (w, RustResult.ok h)),
            spawned := [], panicked := false })
  ∧ (∀ d txs e, s.hashes.get u.spec = some (HashState.Pending u.version d txs) →
        u.result = RustResult.err e →
        handle_hash_update u s =
          { state := { hashes := s.hashes.insert u.spec (HashState.Unavailable e), ctr := s.ctr },
            sent := txs.map (fun w => (w, RustResult.err (Error.HashingError e))),
            spawned := [], panicked := false }) := by
  refine ⟨?_, ?_, ?_, ?_, ?_, ?_⟩
  · intro hg
    simp only [handle_hash_update, hg]
  · intro h hg
    simp only [handle_hash_update, hg]
  · intro r hg
    simp only [handle_hash_update, hg]
  · intro v d txs hg hne
    simp only [handle_hash_update, hg, if_neg hne]
  · intro d txs h hg hr
    simp [handle_hash_update, hg, hr]
  · intro d txs e hg hr
    simp [handle_hash_update, hg, hr]

/-- Witness for C1 at a concrete Pending entry with a matching version. -/
theorem C1_hash_completion_applied_witness :
    demoPendingState.hashes.get demoUpdate.spec =
        some (HashState.Pending demoUpdate.version HashDebouncer.mkDefault [3, 4])
  ∧ demoUpdate.result = RustResult.ok [("a", "h1")]
  ∧ handle_hash_update demoUpdate demoPendingState =
      { state :=
          { hashes := demoPendingState.hashes.insert demoUpdate.spec
              (HashState.Hashes [("a", "h1")]),
            ctr := demoPendingState.ctr },
        sent := [3, 4].map (fun w => (w, RustResult.ok [("a", "h1")])),
        spawned := [], panicked := false } :=
  ⟨by decide, by decide,
    (C1_hash_completion_applied demoUpdate demoPendingState).2.2.2.2.1
      HashDebouncer.mkDefault [3, 4] [("a", "h1")] (by decide) (by decide)⟩

/-- C2: a GetHash query replies UnknownPackage when the spec is absent, Ok
with a clone of the hashes when Ready, HashingError with a clone of the
reason when Unavailable, and when Pending it only appends the reply sender
to the waiter list, leaving the Version and debouncer untouched and
spawning no job. -/
theorem C2_get_hash_query (spec : HashSpec) (tx : WaiterId) (dropped : WaiterId → Bool)
    (s : LoopState) :
    (s.hashes.get spec = none →
        handle_query spec tx dropped s =
          { state := s, sent := [(tx, RustResult.err (Error.UnknownPackage spec))],
            spawned := [], panicked := false })
  ∧ (∀ h, s.hashes.get spec = some (HashState.Hashes h) →
        handle_query spec tx dropped s =
          { state := s, sent := [(tx, RustResult.ok h)],
            spawned := [], panicked := dropped tx })
  ∧ (∀ v d txs, s.hashes.get spec = some (HashState.Pending v d txs) →
        handle_query spec tx dropped s =
          { state := { hashes := s.hashes.insert spec (HashState.Pending v d (txs ++ [tx])),
                       ctr := s.ctr },
            sent := [], spawned := [], panicked := false })
  ∧ (∀ r, s.hashes.get spec = some (HashState.Unavailable r) →
        handle_query spec tx dropped s =
          { state := s, sent := [(tx, RustResult.err (Error.HashingError r))],
            spawned := [], panicked := false }) := by
  refine ⟨?_, ?_, ?_, ?_⟩
  · intro hg
    simp only [handle_query, hg]
  · intro h hg
    simp only [handle_query, hg]
  · intro v d txs hg
    simp only [handle_query, hg]
  · intro r hg
    simp only [handle_query, hg]

/-- Witness for C2 at a concrete Pending entry. -/
theorem C2_get_hash_query_witness :
    demoPendingState.hashes.get { package_path := "pkg", inputs := none } =
        some (HashState.Pending 7 HashDebouncer.mkDefault [3, 4])
  ∧ handle_query { package_path := "pkg", inputs := none } 9 (fun _ => false)
        demoPendingState =
      { state :=
          { hashes := demoPendingState.hashes.insert { package_path := "pkg", inputs := none }
              (HashState.Pending 7 HashDebouncer.mkDefault ([3, 4] ++ [9])),
            ctr := demoPendingState.ctr },
        sent := [], spawned := [], panicked := false } :=
  ⟨by decide,
    (C2_get_hash_query { package_path := "pkg", inputs := none } 9 (fun _ => false)
        demoPendingState).2.2.1 7 HashDebouncer.mkDefault [3, 4] (by decide)⟩

/-- C4 evidence: serving a GetHash query against a Ready entry panics when
the client has already dropped the oneshot receiver, because the Hashes
branch of handle_query unwraps the send result (hash_watcher.rs line 418),
unlike every other send site of the loop. -/
theorem C4_ready_entry_dropped_receiver_panics :
    (handle_query { package_path := "packages/foo", inputs := none } 0 (fun _ => true)
      { hashes := demoTrie, ctr := 0 }).panicked = true := by decide

/-- C9: Version equality is identity equality in the model: a later
issuance is never ptr-equal to an earlier one, a clone is ptr-equal to its
original, and ptr-equality is reflexive, symmetric and transitive. -/
theorem C9_version_identity :
    (∀ c c2 : Nat, (Version.issue c).2 ≤ c2 →
        Version.ptrEq (Version.issue c2).1 (Version.issue c).1 = false)
  ∧ (∀ v : Version, Version.ptrEq (Version.clone v) v = true)
  ∧ (∀ v : Version, Version.ptrEq v v = true)
  ∧ (∀ a b : Version, Version.ptrEq a b = Version.ptrEq b a)
  ∧ (∀ a b c : Version, Version.ptrEq a b = true → Version.ptrEq b c = true →
        Version.ptrEq a c = true) := by
  refine ⟨?_, ?_, ?_, ?_, ?_⟩
  · intro c c2 h
    have h2 : c + 1 ≤ c2 := h
    show (c2 == c) = false
    rw [beq_eq_false_iff_ne]
    omega
  · intro v
    simp [Version.ptrEq, Version.clone]
  · intro v
    simp [Version.ptrEq]
  · intro a b
    simp only [Version.ptrEq]
    by_cases h : a = b
    · rw [h]
    · rw [beq_eq_false_iff_ne.mpr h, beq_eq_false_iff_ne.mpr (Ne.symm h)]
  · intro a b c h1 h2
    simp only [Version.ptrEq] at *
    have hab : a = b := by simpa using h1
    have hbc : b = c := by simpa using h2
    rw [hab, hbc]
    simp

/-- Witness for C9: the issuances at counters 0 and 1 compare unequal. -/
theorem C9_version_identity_witness :
    (Version.issue 0).2 ≤ 1
  ∧ Version.ptrEq (Version.issue 1).1 (Version.issue 0).1 = false :=
  ⟨by decide, C9_version_identity.1 0 1 (by decide)⟩

/-- C3 counterexample: the claim says a path is never attributed to a key
that is merely a string prefix without being a directory ancestor, but
with only packages/foo in the trie, the path packages/foobar/file is
attributed to packages/foo, which is not a path-component ancestor. -/
theorem C3_component_ancestor_counterexample :
    demoTrie.get_package_path "packages/foobar/file" = some "packages/foo"
  ∧ isComponentAncestor "packages/foo" "packages/foobar/file" = false := by
  constructor
  · decide
  · decide

/-- C3 amended: get_package_path returns the longest trie key whose string
form is a prefix of the queried path (the radix-trie get_ancestor
semantics); the result need not be a path-component ancestor. -/
theorem C3_get_package_path_longest_string_match (fh : FileHashes) (p k : String) :
    fh.get_package_path p = some k ↔
      ((∃ sts, (k, sts) ∈ fh.trie) ∧ k.data.isPrefixOf p.data = true ∧
        ∀ k2 sts2, (k2, sts2) ∈ fh.trie → k2.data.isPrefixOf p.data = true →
          k2.length ≤ k.length) :=
  get_package_path_iff fh p k

/-- Witness for C3 amended: the lookup at a genuine descendant path. -/
theorem C3_get_package_path_longest_string_match_witness :
    demoTrie.get_package_path "packages/foo/file" = some "packages/foo" := by
  apply (C3_get_package_path_longest_string_match demoTrie "packages/foo/file"
    "packages/foo").mpr
  refine ⟨⟨[(none, HashState.Hashes [("foo-file", "deadbeef")])], by decide⟩, by decide, ?_⟩
  intro k2 sts2 hm hp
  have hk : (k2, sts2) =
      ("packages/foo", [(none, HashState.Hashes [("foo-file", "deadbeef")])]) := by
    simpa [demoTrie] using hm
  have hk2 : k2 = "packages/foo" := congrArg Prod.fst hk
  rw [hk2]

/-- C5: for a burst of bumps each landing before the pending deadline, the
debounce run returns exactly once, at the last bump time plus T (hence at
least T after the last bump); every bump of the burst returns true and the
serial is incremented once per bump; the debouncer is then terminal, and
any later bump returns false and leaves it terminal. -/
theorem C5_debouncer_burst (T t0 : Nat) (ts more : List Nat)
    (hb : burstWithin T (t0 + T) ts = true) :
    (debounceRun (HashDebouncer.new T) (t0 + T) ts).1 = List.replicate ts.length true
  ∧ (debounceRun (HashDebouncer.new T) (t0 + T) ts).2.1 = lastDeadline T (t0 + T) ts
  ∧ (∀ h : ts ≠ [],
        (debounceRun (HashDebouncer.new T) (t0 + T) ts).2.1 = ts.getLast h + T)
  ∧ (debounceRun (HashDebouncer.new T) (t0 + T) ts).2.2.serial = none
  ∧ (bumpSeq (HashDebouncer.new T) ts).1 = List.replicate ts.length true
  ∧ (bumpSeq (HashDebouncer.new T) ts).2.serial = some ts.length
  ∧ (bumpSeq (debounceRun (HashDebouncer.new T) (t0 + T) ts).2.2 more).1 =
      List.replicate more.length false
  ∧ (bumpSeq (debounceRun (HashDebouncer.new T) (t0 + T) ts).2.2 more).2 =
      (debounceRun (HashDebouncer.new T) (t0 + T) ts).2.2 := by
  have hnew : HashDebouncer.new T = { serial := some 0, timeout := T } := rfl
  have hrun := debounceRun_burst T ts 0 (t0 + T) hb
  have hlive := bumpSeq_live T 0 ts
  have hdead := bumpSeq_dead { serial := none, timeout := T } more rfl
  rw [hnew, hrun, hlive]
  refine ⟨rfl, rfl, ?_, rfl, rfl, by simp, ?_, ?_⟩
  · intro h
    exact lastDeadline_getLast T ts (t0 + T) h
  · rw [hdead]
  · rw [hdead]

/-- Witness for C5: three bumps 2 ms apart with T = 10 fire at 16. -/
theorem C5_debouncer_burst_witness :
    burstWithin 10 (0 + 10) [2, 4, 6] = true
  ∧ (debounceRun (HashDebouncer.new 10) (0 + 10) [2, 4, 6]).2.1 = 16 := by
  refine ⟨by decide, ?_⟩
  have h := (C5_debouncer_burst 10 0 [2, 4, 6] [] (by decide)).2.1
  rw [h]
  decide

/-- C6: drop_matching keeps exactly the non-matching keys, with their
states and waiter lists unchanged (the remaining trie is the filter of the
original), notifies every waiter of every removed Pending state with
Unavailable(reason), sends nothing but such notifications, and drain is
drop_matching with the always-true predicate. -/
theorem C6_drop_matching_removes_and_notifies (fh : FileHashes) (f : String → Bool)
    (reason : String) :
    (fh.drop_matching f reason).1.trie = fh.trie.filter (fun kv => !f kv.1)
  ∧ (∀ k states i v d ws w, (k, states) ∈ fh.trie → f k = true →
        (i, HashState.Pending v d ws) ∈ states → w ∈ ws →
        (w, RustResult.err (Error.Unavailable reason)) ∈ (fh.drop_matching f reason).2)
  ∧ (∀ x ∈ (fh.drop_matching f reason).2, x.2 = RustResult.err (Error.Unavailable reason))
  ∧ fh.drain reason = fh.drop_matching (fun _ => true) reason := by
  refine ⟨?_, ?_, ?_, rfl⟩
  · exact dropMatchingList_fst f reason fh.trie
  · intro k states i v d ws w hm hf hs hw
    exact dropMatchingList_sends_mem f reason fh.trie k states i v d ws w hm hf hs hw
  · intro x hx
    exact dropMatchingList_sends_shape f reason fh.trie x hx

/-- Witness for C6: draining a Pending entry notifies waiter 3. -/
theorem C6_drop_matching_removes_and_notifies_witness :
    ("pkg", [(none, HashState.Pending 7 HashDebouncer.mkDefault [3, 4])]) ∈
        demoPendingState.hashes.trie
  ∧ (3, RustResult.err (Error.Unavailable "gone")) ∈
      (demoPendingState.hashes.drop_matching (fun _ => true) "gone").2 :=
  ⟨by decide,
    (C6_drop_matching_removes_and_notifies demoPendingState.hashes (fun _ => true) "gone").2.1
      "pkg" [(none, HashState.Pending 7 HashDebouncer.mkDefault [3, 4])]
      none 7 HashDebouncer.mkDefault [3, 4] 3 (by decide) rfl (by decide) (by decide)⟩

/-- C8: a file event folds the per-package update over the deduplicated
set of affected packages; a path is affected exactly when the ancestor
lookup finds a package for it (others are ignored); and the per-package
update installs a fresh Pending with no waiters when the entry is absent
or not Pending, bumps (only increments the serial of) a live Pending
entry, and replaces a Pending entry whose debouncer already fired by a
fresh Pending carrying the moved waiter list and a new version. -/
theorem C8_file_event_updates (paths : List String) (s : LoopState) (acc : EventOut)
    (pkg : String) :
    handle_file_event paths s =
      (changedPackages s.hashes paths).foldl processChangedPackage
        { state := s, sent := [], spawned := [], panicked := false }
  ∧ (∀ x, x ∈ changedPackages s.hashes paths ↔
      ∃ p ∈ paths, s.hashes.get_package_path p = some x)
  ∧ (changedPackages s.hashes paths).Nodup
  ∧ (acc.state.hashes.get { package_path := pkg, inputs := none } = none →
      processChangedPackage acc pkg =
        { acc with
          state :=
            { hashes :=
                acc.state.hashes.insert { package_path := pkg, inputs := none }
                  (HashState.Pending acc.state.ctr HashDebouncer.mkDefault []),
              ctr := acc.state.ctr + 1 },
          spawned :=
            acc.spawned ++
              [({ package_path := pkg, inputs := none }, (acc.state.ctr : Version))] })
  ∧ (∀ v d txs n, acc.state.hashes.get { package_path := pkg, inputs := none } =
        some (HashState.Pending v d txs) → d.serial = some n →
      processChangedPackage acc pkg =
        { acc with
          state :=
            { hashes :=
                acc.state.hashes.insert { package_path := pkg, inputs := none }
                  (HashState.Pending v { serial := some (n + 1), timeout := d.timeout } txs),
              ctr := acc.state.ctr } })
  ∧ (∀ v d txs, acc.state.hashes.get { package_path := pkg, inputs := none } =
        some (HashState.Pending v d txs) → d.serial = none →
      processChangedPackage acc pkg =
        { acc with
          state :=
            { hashes :=
                acc.state.hashes.insert { package_path := pkg, inputs := none }
                  (HashState.Pending acc.state.ctr HashDebouncer.mkDefault txs),
              ctr := acc.state.ctr + 1 },
          spawned :=
            acc.spawned ++
              [({ package_path := pkg, inputs := none }, (acc.state.ctr : Version))] })
  ∧ (∀ h, acc.state.hashes.get { package_path := pkg, inputs := none } =
        some (HashState.Hashes h) →
      processChangedPackage acc pkg =
        { acc with
          state :=
            { hashes :=
                acc.state.hashes.insert { package_path := pkg, inputs := none }
                  (HashState.Pending acc.state.ctr HashDebouncer.mkDefault []),
              ctr := acc.state.ctr + 1 },
          spawned :=
            acc.spawned ++
              [({ package_path := pkg, inputs := none }, (acc.state.ctr : Version))] })
  ∧ (∀ r, acc.state.hashes.get { package_path := pkg, inputs := none } =
        some (HashState.Unavailable r) →
      processChangedPackage acc pkg =
        { acc with
          state :=
            { hashes :=
                acc.state.hashes.insert { package_path := pkg, inputs := none }
                  (HashState.Pending acc.state.ctr HashDebouncer.mkDefault []),
              ctr := acc.state.ctr + 1 },
          spawned :=
            acc.spawned ++
              [({ package_path := pkg, inputs := none }, (acc.state.ctr : Version))] }) := by
  refine ⟨rfl, ?_, changedPackages_nodup s.hashes paths, ?_, ?_, ?_, ?_, ?_⟩
  · intro x
    exact changedPackages_mem s.hashes paths x
  · intro hg
    simp [processChangedPackage, hg, queue_package_hash, Version.issue]
  · intro v d txs n hg hd
    have hb : d.bump = (true, { serial := some (n + 1), timeout := d.timeout }) := by
      simp [HashDebouncer.bump, hd]
    simp [processChangedPackage, hg, hb]
  · intro v d txs hg hd
    have hb : d.bump = (false, d) := by
      simp [HashDebouncer.bump, hd]
    simp [processChangedPackage, hg, hb, queue_package_hash, Version.issue]
  · intro h hg
    simp [processChangedPackage, hg, queue_package_hash, Version.issue]
  · intro r hg
    simp [processChangedPackage, hg, queue_package_hash, Version.issue]

/-- Witness for C8: a Ready entry is replaced by a fresh Pending. -/
theorem C8_file_event_updates_witness :
    ({ state := { hashes := demoTrie, ctr := 0 }, sent := [], spawned := [],
        panicked := false } : EventOut).state.hashes.get
      { package_path := "packages/foo", inputs := none } =
        some (HashState.Hashes [("foo-file", "deadbeef")])
  ∧ processChangedPackage
      { state := { hashes := demoTrie, ctr := 0 }, sent := [], spawned := [],
        panicked := false } "packages/foo" =
      { state :=
          { hashes :=
              demoTrie.insert { package_path := "packages/foo", inputs := none }
                (HashState.Pending 0 HashDebouncer.mkDefault []),
            ctr := 1 },
        sent := [],
        spawned := [({ package_path := "packages/foo", inputs := none }, 0)],
        panicked := false } :=
  ⟨by decide,
    (C8_file_event_updates [] demoPendingState
      { state := { hashes := demoTrie, ctr := 0 }, sent := [], spawned := [],
        panicked := false } "packages/foo").2.2.2.2.2.2.1
      [("foo-file", "deadbeef")] (by decide)⟩

theorem foldl_install_pres_get (roots : List String) (acc : EventOut) (spec : HashSpec)
    (st : HashState) (h : acc.state.hashes.get spec = some st) :
    (roots.foldl installPackage acc).state.hashes.get spec = some st := by
  have hc : acc.state.hashes.contains_key spec = true := by
    simp [FileHashes.contains_key, h]
  rw [foldl_install_pres roots acc spec hc]
  exact h

/-- C7: a None or Err topology snapshot drains the whole index with reason
"package discovery is unavailable"; an Ok snapshot first drops every
package not in the new root set with reason "package was removed" and then
installs, for each root whose default spec is absent, a fresh Pending
entry with a newly launched job, while roots whose default spec survived
the drop keep their state. -/
theorem C7_topology_reconciliation (s : LoopState) (e : String) (roots : List String)
    (p : String) :
    (handle_package_data_update none s =
      { state :=
          { hashes := (s.hashes.drain "package discovery is unavailable").1,
            ctr := s.ctr },
        sent := (s.hashes.drain "package discovery is unavailable").2,
        spawned := [], panicked := false })
  ∧ (handle_package_data_update (some (RustResult.err e)) s =
      { state :=
          { hashes := (s.hashes.drain "package discovery is unavailable").1,
            ctr := s.ctr },
        sent := (s.hashes.drain "package discovery is unavailable").2,
        spawned := [], panicked := false })
  ∧ (handle_package_data_update (some (RustResult.ok roots)) s =
      roots.foldl installPackage
        { state :=
            { hashes :=
                (s.hashes.drop_matching (fun k => !(roots.contains k))
                  "package was removed").1,
              ctr := s.ctr },
          sent :=
            (s.hashes.drop_matching (fun k => !(roots.contains k))
              "package was removed").2,
          spawned := [], panicked := false })
  ∧ (p ∈ roots →
      (handle_package_data_update (some (RustResult.ok roots)) s).state.hashes.contains_key
        { package_path := p, inputs := none } = true)
  ∧ (∀ st, p ∈ roots →
      (s.hashes.drop_matching (fun k => !(roots.contains k)) "package was removed").1.get
          { package_path := p, inputs := none } = some st →
      (handle_package_data_update (some (RustResult.ok roots)) s).state.hashes.get
        { package_path := p, inputs := none } = some st)
  ∧ (p ∈ roots →
      (s.hashes.drop_matching (fun k => !(roots.contains k))
          "package was removed").1.contains_key
        { package_path := p, inputs := none } = false →
      ∃ v : Version,
        (handle_package_data_update (some (RustResult.ok roots)) s).state.hashes.get
            { package_path := p, inputs := none } =
          some (HashState.Pending v HashDebouncer.mkDefault [])
        ∧ ({ package_path := p, inputs := none }, v) ∈
            (handle_package_data_update (some (RustResult.ok roots)) s).spawned) := by
  refine ⟨rfl, rfl, rfl, ?_, ?_, ?_⟩
  · intro hp
    exact foldl_install_contains roots _ p hp
  · intro st hp hget
    exact foldl_install_pres_get roots _ { package_path := p, inputs := none } st hget
  · intro hp hc
    exact foldl_install_fresh roots _ p hp hc

/-- Witness for C7: a fresh root gets a Pending entry installed. -/
theorem C7_topology_reconciliation_witness :
    "newpkg" ∈ ["newpkg"]
  ∧ ((FileHashes.new.drop_matching (fun k => !(["newpkg"].contains k))
        "package was removed").1.contains_key
      { package_path := "newpkg", inputs := none } = false)
  ∧ ∃ v : Version,
      (handle_package_data_update (some (RustResult.ok ["newpkg"]))
          { hashes := FileHashes.new, ctr := 0 }).state.hashes.get
          { package_path := "newpkg", inputs := none } =
        some (HashState.Pending v HashDebouncer.mkDefault [])
      ∧ ({ package_path := "newpkg", inputs := none }, v) ∈
          (handle_package_data_update (some (RustResult.ok ["newpkg"]))
            { hashes := FileHashes.new, ctr := 0 }).spawned :=
  ⟨by decide, by decide,
    (C7_topology_reconciliation { hashes := FileHashes.new, ctr := 0 } "" ["newpkg"]
      "newpkg").2.2.2.2.2 (by decide) (by decide)⟩

/-- C10: the empty index satisfies the default-spec invariant (every trie
key has an entry for inputs None); each of the four handlers preserves it;
under the invariant, a key returned by the ancestor lookup has a state for
its default spec; and the per-package step of handle_file_event never
discards an existing entry, so along the fold the absent-entry branch is
unreachable for packages produced by the lookup. -/
theorem C10_default_spec_invariant (fh : FileHashes) (path k : String)
    (paths : List String) (u : HashUpdate) (pd : DiscoveryData) (spec0 : HashSpec)
    (tx : WaiterId) (dropped : WaiterId → Bool) (s : LoopState) (acc : EventOut)
    (pkg : String) (spec : HashSpec) :
    FileHashes.new.defaultKeyInvariant
  ∧ (s.hashes.defaultKeyInvariant →
      (handle_query spec0 tx dropped s).state.hashes.defaultKeyInvariant)
  ∧ (s.hashes.defaultKeyInvariant →
      (handle_hash_update u s).state.hashes.defaultKeyInvariant)
  ∧ (s.hashes.defaultKeyInvariant →
      (handle_file_event paths s).state.hashes.defaultKeyInvariant)
  ∧ (s.hashes.defaultKeyInvariant →
      (handle_package_data_update pd s).state.hashes.defaultKeyInvariant)
  ∧ (fh.defaultKeyInvariant → fh.get_package_path path = some k →
      (fh.get { package_path := k, inputs := none }).isSome = true)
  ∧ ((acc.state.hashes.get spec).isSome = true →
      ((processChangedPackage acc pkg).state.hashes.get spec).isSome = true) := by
  refine ⟨invariant_new, ?_, ?_, ?_, ?_, ?_, ?_⟩
  · intro h
    exact invariant_handle_query spec0 tx dropped s h
  · intro h
    exact invariant_handle_hash_update u s h
  · intro h
    exact invariant_handle_file_event paths s h
  · intro h
    exact invariant_handle_package_data_update pd s h
  · intro h hg
    exact invariant_get_default fh k h (get_package_path_mem fh path k hg)
  · intro h
    exact processChangedPackage_keeps_isSome acc pkg spec h

/-- Witness for C10: the invariant holds on the demonstration index and
yields a default-spec state for the looked-up package. -/
theorem C10_default_spec_invariant_witness :
    demoTrie.defaultKeyInvariant
  ∧ demoTrie.get_package_path "packages/foo/x" = some "packages/foo"
  ∧ (demoTrie.get { package_path := "packages/foo", inputs := none }).isSome = true := by
  have hinv : demoTrie.defaultKeyInvariant := by
    intro k2 sts hm
    have h := List.mem_singleton.mp hm
    have hs : sts = [(none, HashState.Hashes [("foo-file", "deadbeef")])] :=
      congrArg Prod.snd h
    rw [hs]
    decide
  have hgpp : demoTrie.get_package_path "packages/foo/x" = some "packages/foo" := by decide
  exact ⟨hinv, hgpp,
    (C10_default_spec_invariant demoTrie "packages/foo/x" "packages/foo" [] demoUpdate none
      { package_path := "", inputs := none } 0 (fun _ => false) demoPendingState
      { state := demoPendingState, sent := [], spawned := [], panicked := false } "x"
      { package_path := "", inputs := none }).2.2.2.2.2.1 hinv hgpp⟩
